import Mathlib

/-!
# Verification of the sPyNNaker post-event history arena
  (`neural_modelling/src/neuron/plasticity/common/{post_events.h, spinn_gc.h, spinn_gc.c}`)

Shallow embedding conventions:

* Addresses are byte addresses, exactly as in the C source.  Memory is
  `Mem := Nat → Nat`, where `m a` is the 32-bit word stored at byte address
  `a`; all addresses actually read or written by the embedded code are
  4-aligned, so cells at non-aligned addresses are never observed.
* `post_trace_t` is not defined under the files at hand; throughout the
  repository's STDP pair rule it is a 4-byte record, and we fix
  `sizeof(post_trace_t) = 4`.  Hence `TRACE_SIZE = sizeof(post_trace_t) +
  sizeof(uint32_t) = 8`, which is already word aligned (the
  `while (TRACE_SIZE % 4 != 0) TRACE_SIZE++;` loop in
  `post_events_init_buffers` is a no-op), and the trace-shift stride
  `sizeof(uint32_t)/sizeof(post_trace_t)` in `extend_hist_trace_buffer`
  is `1` element, i.e. 4 bytes.
* C pointers become `Nat` byte addresses, `NULL` becomes `0`.
* `sark_block_copy` (hand-written LDM/STM assembly) is embedded as the
  sequential ascending-address chunk copy the assembly performs (16-byte
  quads, then single words; each chunk loads fully before it stores), so
  a destination that overlaps the source from above re-reads just-written
  words exactly as the hardware does.  The `spin1_dma_transfer` +
  sentinel-poll pair of the compactor is modelled as a completed bulk
  transfer reading the pre-call memory: the staging pass copies every
  selected buffer to SDRAM — an address space disjoint from the arena —
  before the writeback is issued.
* `io_printf`/`log_*`/profiler calls have no effect on the modelled state
  and are dropped.
-/

namespace SpinnGC

/-- Word-granular memory over byte addresses: `m a` is the 32-bit word at
byte address `a`. -/
abbrev Mem := Nat → Nat

/-- Store word `v` at byte address `a`. -/
def writeW (m : Mem) (a v : Nat) : Mem := fun x => if x = a then v else m x

/-- From `post_events.h`: `MAX_POST_SYNAPTIC_EVENTS` — base capacity in events. -/
def MAX_POST_SYNAPTIC_EVENTS : Nat := 4

/-- From `post_events.h`: `EXTRA_HISTORY_TRACE_SPACE_FACTOR` — shared slack pool,
in events per neuron. -/
def EXTRA_HISTORY_TRACE_SPACE_FACTOR : Nat := 3

/-- From `spinn_gc.h`: `COMPACTOR_FRAGMENTATION_FACTOR`. -/
def COMPACTOR_FRAGMENTATION_FACTOR : Nat := 4

/-- The stride `TRACE_SIZE = sizeof(post_trace_t) + sizeof(uint32_t)` with
`sizeof(post_trace_t) = 4` (see module docstring), after the word-alignment
rounding loop (a no-op for 8). -/
def TRACE_SIZE : Nat := 8

/-- The `-1` sentinel word written before issuing a DMA transfer
(`addr[0] = -1;` in `compact_post_traces`), as an unsigned 32-bit word. -/
def SENTINEL : Nat := 4294967295

/-! ## `sark_block_copy`

```c
void sark_block_copy (int dest, const int src, uint n) {
  if (n % 4 != 0) n = n / 4 + (n % 4); else n = n / 4;
  asm (
    "blockcopy%=:  MOVS r3, r2, LSR #2 ; BEQ copywords%= ; PUSH {r4-r7}
     quadcopy%=:   LDMIA r0!, {r4-r7} ; STMIA r1!, {r4-r7}
                   SUBS r3, #1 ; BNE quadcopy%= ; POP {r4-r7}
     copywords%=:  ANDS r2, r2, #3 ; BEQ stop%=
     wordcopy%=:   LDR r3, [r0], #4 ; STR r3, [r1], #4
                   SUBS r2, r2, #1 ; BNE wordcopy%=
     stop%=:" ...);
}
```
After converting the byte count to `n` words, the assembly performs
`n >> 2` sequential 16-byte chunks (each chunk *loads* four words into
registers and only then *stores* them) followed by `n & 3` sequential
single-word copies.  The embedding mirrors that exactly: each chunk is a
self-contained copy reading the memory as it stands when the chunk runs,
and chunks run in ascending address order, so a destination that
overlaps the source from above re-reads just-written words, as the
hardware does. -/

/-- The word count actually copied by `sark_block_copy` for a byte count
`n`: the C code computes `n / 4 + (n % 4)` when `n` is not a multiple of 4,
else `n / 4`. -/
def wordsOf (n : Nat) : Nat := if n % 4 ≠ 0 then n / 4 + n % 4 else n / 4

/-- One self-contained copy step of `len` bytes: all reads happen before
all writes (the LDMIA of a 16-byte quad, or the single LDR of a 4-byte
word, completes before the corresponding store). -/
def copyChunk (m : Mem) (dest src len : Nat) : Mem :=
  fun a => if dest ≤ a ∧ a < dest + len then m (src + (a - dest)) else m a

/-- The LDM/STM quad loop: `q` sequential 16-byte chunks in ascending
address order, each reading the memory left by the previous chunks. -/
def copyQuads (src dest : Nat) : Nat → Mem → Mem
  | 0, m => m
  | q + 1, m => copyQuads (src + 16) (dest + 16) q (copyChunk m dest src 16)

/-- The LDR/STR remainder loop: `k` sequential single-word copies in
ascending address order. -/
def copyWordsSeq (src dest : Nat) : Nat → Mem → Mem
  | 0, m => m
  | k + 1, m => copyWordsSeq (src + 4) (dest + 4) k (copyChunk m dest src 4)

/-- `sark_block_copy dest src n`: `wordsOf n / 4` quads then
`wordsOf n % 4` single words, exactly as the assembly sequences them. -/
def sark_block_copy (m : Mem) (dest src n : Nat) : Mem :=
  copyWordsSeq (src + 16 * (wordsOf n / 4)) (dest + 16 * (wordsOf n / 4)) (wordsOf n % 4)
    (copyQuads src dest (wordsOf n / 4) m)

/-! ## Data model

```c
typedef struct {
    uint32_t count_minus_one;
    uint32_t* times;
    post_trace_t* traces;
    uint16_t size;                  // Total size of both times+traces arrays.
} post_event_history_t;

typedef struct {
  uint32_t start_address;
  uint16_t size;
  uint32_t n_neurons;
  uint32_t end_of_last_buffer;
  post_event_history_t* buffers;
} post_event_buffer_t;
```
`times` and `traces` become byte addresses into the shared memory.  The
`buffers` array of `post_event_buffer_t` is carried separately as a
`List PostEventHistory` where an operation needs it (`n_neurons` is its
length); the scalar arena fields live in `Arena`. -/

structure PostEventHistory where
  count_minus_one : Nat
  times : Nat
  traces : Nat
  size : Nat
deriving DecidableEq

structure Arena where
  start_address : Nat
  size : Nat
  end_of_last_buffer : Nat
deriving DecidableEq

/-- The event `i` of a buffer: `(times[i], traces[i])` read from memory
(`times[i]` at byte `times + 4*i`, `traces[i]` at byte `traces + 4*i`
since `sizeof(post_trace_t) = 4`). -/
def eventAt (m : Mem) (b : PostEventHistory) (i : Nat) : Nat × Nat :=
  (m (b.times + 4 * i), m (b.traces + 4 * i))

/-- All stored `(time, trace)` pairs of a buffer, indices
`0 .. count_minus_one`. -/
def bufPairs (m : Mem) (b : PostEventHistory) : List (Nat × Nat) :=
  (List.range (b.count_minus_one + 1)).map (eventAt m b)

/-- The stored timestamps `times[0 .. count)` of a buffer. -/
def timesList (m : Mem) (b : PostEventHistory) : List Nat :=
  (List.range (b.count_minus_one + 1)).map (fun i => m (b.times + 4 * i))

/-! ## Extension (`extend_hist_trace_buffer`, spinn_gc.h)

```c
static inline bool extend_hist_trace_buffer (post_event_buffer_t *post_event_buffers,
                                             post_event_history_t* buffer_to_move) {
  if (post_event_buffers -> start_address + post_event_buffers -> size
      <= (post_event_buffers -> end_of_last_buffer + buffer_to_move -> size
          + TRACE_SIZE)) {
    return false;
  }
  if ((void*)buffer_to_move -> times + buffer_to_move -> size !=
      post_event_buffers -> end_of_last_buffer) {
    sark_block_copy (post_event_buffers -> end_of_last_buffer,
                     buffer_to_move -> times, buffer_to_move -> size);
    int traces_offset = (void*)buffer_to_move -> traces
                        - (void*)buffer_to_move -> times;
    buffer_to_move -> times = post_event_buffers -> end_of_last_buffer;
    buffer_to_move -> traces = post_event_buffers -> end_of_last_buffer + traces_offset;
  }
  if (sizeof(post_trace_t) != 0)
    for (int i = buffer_to_move -> count_minus_one; i >= 0; i--)
      (buffer_to_move -> traces)[i+(sizeof(uint32_t)/sizeof(post_trace_t))]
        = (buffer_to_move -> traces)[i];
  buffer_to_move -> traces = (void*)buffer_to_move -> traces + sizeof(uint32_t);
  buffer_to_move -> size += TRACE_SIZE;
  post_event_buffers -> end_of_last_buffer
    = (void*)buffer_to_move -> times + buffer_to_move -> size;
  return true;
}
```
With `sizeof(post_trace_t) = 4` the shift stride
`sizeof(uint32_t)/sizeof(post_trace_t)` is 1 element (4 bytes).  The C
`return false` happens before any mutation, so failure is modelled as
`none` with the caller keeping the unchanged input state. -/

/-- The trace-shift loop `for (i = cm1; i >= 0; i--) traces[i+1] = traces[i]`
(descending, so each read sees the original value), over byte addresses:
iteration `i` stores the word at `base + 4*i` into `base + 4*(i+1)`. -/
def shiftTracesUp (m : Mem) (base : Nat) : Nat → Mem
  | 0 => writeW m (base + 4) (m base)
  | k + 1 => shiftTracesUp (writeW m (base + 4 * (k + 2)) (m (base + 4 * (k + 1)))) base k

/-- Extension `extend_hist_trace_buffer`.  Returns `none` for the C `return false`
(no state was mutated at that point), otherwise the updated arena, buffer
record, and memory. -/
def extend_hist_trace_buffer (pb : Arena) (b : PostEventHistory) (m : Mem) :
    Option (Arena × PostEventHistory × Mem) :=
  if pb.start_address + pb.size ≤ pb.end_of_last_buffer + b.size + TRACE_SIZE then
    none
  else
    let moved :=
      if b.times + b.size ≠ pb.end_of_last_buffer then
        ({ b with times := pb.end_of_last_buffer,
                  traces := pb.end_of_last_buffer + (b.traces - b.times) },
         sark_block_copy m pb.end_of_last_buffer b.times b.size)
      else (b, m)
    let m2 := shiftTracesUp moved.2 moved.1.traces moved.1.count_minus_one
    let b2 := { moved.1 with traces := moved.1.traces + 4, size := moved.1.size + TRACE_SIZE }
    some ({ pb with end_of_last_buffer := b2.times + b2.size }, b2, m2)

/-! ## Append (`post_events_add`, post_events.h)

```c
static inline void post_events_add(uint32_t time, post_event_history_t *events,
                                   post_trace_t trace) {
    bool shift_elements = false;
    if (events -> times + events -> count_minus_one + 1 == events -> traces)
       shift_elements = !extend_hist_trace_buffer(&post_event_buffers, events);
    if (!shift_elements) {
        const uint32_t new_index = ++events->count_minus_one;
        events->times[new_index] = time;
        events->traces[new_index] = trace;
    } else {
        // **NOTE** 1st element is always an entry at time 0
        for (uint32_t e = 2; e <= events -> count_minus_one; e++) {
            events->times[e - 1] = events->times[e];
            events->traces[e - 1] = events->traces[e];
        }
        events->times[events->count_minus_one] = time;
        events->traces[events->count_minus_one] = trace;
    }
    if (events -> count_minus_one == 1)
      generations[...] ... ;   // generation bookkeeping, see below
}
```
The saturation test `times + count_minus_one + 1 == traces` is `uint32_t*`
arithmetic: byte address `times + 4*(count_minus_one + 1)`.  The trailing
generation-bucket bookkeeping writes only into the global `generations`
table (declared outside the files at hand) and touches no buffer, arena
or trace memory, so it is dropped from the embedding. -/

/-- The shuffle-down loop
`for (e = 2; e <= cm1; e++) { times[e-1] = times[e]; traces[e-1] = traces[e]; }`,
with `tb`/`pbase` the byte addresses of `times`/`traces`, `e` the current
loop index and `k` the number of remaining iterations.  Each iteration
performs the two writes in C order. -/
def shufDown (tb pbase : Nat) : Nat → Nat → Mem → Mem
  | _, 0, m => m
  | e, k + 1, m =>
      let m1 := writeW m (tb + 4 * (e - 1)) (m (tb + 4 * e))
      let m2 := writeW m1 (pbase + 4 * (e - 1)) (m1 (pbase + 4 * e))
      shufDown tb pbase (e + 1) k m2

/-- The fast path of `post_events_add`: increment `count_minus_one` and
store the new pair at the new index. -/
def fastAppend (time trace : Nat) (pb : Arena) (b : PostEventHistory) (m : Mem) :
    Arena × PostEventHistory × Mem :=
  (pb, { b with count_minus_one := b.count_minus_one + 1 },
   writeW (writeW m (b.times + 4 * (b.count_minus_one + 1)) time)
     (b.traces + 4 * (b.count_minus_one + 1)) trace)

/-- The shift-and-drop path of `post_events_add`: shuffle entries
`2 .. count_minus_one` down one slot, then store the new pair at index
`count_minus_one` (the count is not changed). -/
def shuffleAppend (time trace : Nat) (pb : Arena) (b : PostEventHistory) (m : Mem) :
    Arena × PostEventHistory × Mem :=
  let m1 := shufDown b.times b.traces 2 (b.count_minus_one - 1) m
  let m2 := writeW m1 (b.times + 4 * b.count_minus_one) time
  (pb, b, writeW m2 (b.traces + 4 * b.count_minus_one) trace)

/-- Append `post_events_add`: on a saturated buffer try Extension and on its
failure fall back to shift-and-drop; otherwise (or after a successful
Extension, which opens one slot) take the fast path on the possibly
relocated buffer. -/
def post_events_add (time : Nat) (pb : Arena) (b : PostEventHistory) (trace : Nat) (m : Mem) :
    Arena × PostEventHistory × Mem :=
  if b.times + 4 * (b.count_minus_one + 1) = b.traces then
    match extend_hist_trace_buffer pb b m with
    | some (pb2, b2, m2) => fastAppend time trace pb2 b2 m2
    | none => shuffleAppend time trace pb b m
  else
    fastAppend time trace pb b m

/-! ## Scanning / recycling (`scan_history_traces`, spinn_gc.h)

```c
static inline scan_history_traces (post_event_buffer_t *post_event_buffers, int oldest_time) {
  for (int i = 0; i < post_event_buffers -> n_neurons; i++) {
    post_event_history_t* buffer = &(post_event_buffers -> buffers)[i];
    uint32_t recycled_traces = 0;
    for (int j = 0; j < buffer -> count_minus_one; j++) {
      if ((buffer -> times)[j] < oldest_time) recycled_traces++;
      else break;
    }
    if (recycled_traces == 0) continue;
    buffer -> times = buffer -> times + recycled_traces;
    for (int i = 0; i <= buffer -> count_minus_one - recycled_traces; i++)
      (buffer -> traces)[i] = (buffer -> traces)[i+recycled_traces];
    buffer -> size -= recycled_traces * TRACE_SIZE;
    buffer -> count_minus_one -= recycled_traces;
  }
}
```
Note the prefix loop starts at `j = 0` (the index-0 entry is *not*
excluded) and is bounded by `j < count_minus_one` (the newest entry is
never counted); `times + recycled_traces` is `uint32_t*` arithmetic,
i.e. `4 * recycled_traces` bytes. -/

/-- The prefix-counting loop: with `k` iterations of budget starting at
byte address `base`, count how many leading entries are `< h`, stopping
at the first that is not. -/
def prefixLtCount (m : Mem) (base h : Nat) : Nat → Nat
  | 0 => 0
  | k + 1 => if m base < h then prefixLtCount m (base + 4) h k + 1 else 0

/-- The trace compaction loop
`for (i = 0; i <= cm1 - recycled; i++) traces[i] = traces[i+recycled]`:
`i` is the current index, `k` the remaining iterations. -/
def shiftTracesDown (r base : Nat) : Nat → Nat → Mem → Mem
  | _, 0, m => m
  | i, k + 1, m =>
      shiftTracesDown r base (i + 1) k (writeW m (base + 4 * i) (m (base + 4 * (i + r))))

/-- One iteration of the outer loop of `scan_history_traces`, acting on
buffer `b`: count the recycled prefix, and if non-zero advance the
`times` pointer, compact the traces down, and shrink `size` and
`count_minus_one`. -/
def scanOneBuffer (oldest : Nat) (b : PostEventHistory) (m : Mem) : PostEventHistory × Mem :=
  if prefixLtCount m b.times oldest b.count_minus_one = 0 then (b, m)
  else
    ({ b with times := b.times + 4 * prefixLtCount m b.times oldest b.count_minus_one,
              size := b.size - prefixLtCount m b.times oldest b.count_minus_one * TRACE_SIZE,
              count_minus_one :=
                b.count_minus_one - prefixLtCount m b.times oldest b.count_minus_one },
     shiftTracesDown (prefixLtCount m b.times oldest b.count_minus_one) b.traces 0
       (b.count_minus_one - prefixLtCount m b.times oldest b.count_minus_one + 1) m)

/-- Scanner `scan_history_traces`: the outer loop over all buffers, threading the
memory through. -/
def scan_history_traces (oldest : Nat) : List PostEventHistory → Mem → List PostEventHistory × Mem
  | [], m => ([], m)
  | b :: rest, m =>
      ((scanOneBuffer oldest b m).1 :: (scan_history_traces oldest rest (scanOneBuffer oldest b m).2).1,
       (scan_history_traces oldest rest (scanOneBuffer oldest b m).2).2)

/-! ## Window iterator (`post_events_get_window`, post_events.h)

```c
static inline post_event_window_t post_events_get_window(
        const post_event_history_t *events, uint32_t begin_time) {
    const uint32_t count = events->count_minus_one + 1;
    const uint32_t *end_event_time = events->times + count;
    const post_trace_t *end_event_trace = events->traces + count;
    const uint32_t *event_time = end_event_time;
    post_event_window_t window;
    do {
        window.next_time = event_time--;
    } while (*event_time > begin_time && event_time != events->times);
    window.prev_time = *event_time;
    window.num_events = (end_event_time - window.next_time);
    window.next_trace = (end_event_trace - window.num_events);
    window.prev_trace = *(window.next_trace - 1);
    return window;
}
```
The walk caches `next_time`, decrements, and stops at the first entry
`≤ begin_time` or at the start of the array.  The function only reads
(`const`): the embedding takes the memory and returns a window value,
leaving the memory argument untouched by construction. -/

structure PostEventWindow where
  prev_time : Nat
  prev_trace : Nat
  next_time : Nat
  next_trace : Nat
  num_events : Nat
deriving DecidableEq

/-- The backward walk of `post_events_get_window`: starting at candidate
position `p` (the code starts at `count - 1` after the first decrement),
return the first position whose entry is `≤ t`, or `0` when the start of
the array is reached. -/
def prevIdx (m : Mem) (base t : Nat) : Nat → Nat
  | 0 => 0
  | p + 1 => if t < m (base + 4 * (p + 1)) then prevIdx m base t p else p + 1

/-- Window query `post_events_get_window`: `prev_time`/`prev_trace` are the located
previous event's values; `next_time`/`next_trace` are the byte addresses
of the first newer event; `num_events` counts the newer events. -/
def post_events_get_window (m : Mem) (events : PostEventHistory) (begin_time : Nat) :
    PostEventWindow :=
  { prev_time := m (events.times + 4 * prevIdx m events.times begin_time events.count_minus_one),
    prev_trace := m (events.traces + 4 * prevIdx m events.times begin_time events.count_minus_one),
    next_time :=
      events.times + 4 * (prevIdx m events.times begin_time events.count_minus_one + 1),
    next_trace :=
      events.traces + 4 * (prevIdx m events.times begin_time events.count_minus_one + 1),
    num_events :=
      events.count_minus_one + 1 - (prevIdx m events.times begin_time events.count_minus_one + 1) }

/-! ## Compaction (`compact_post_traces`, spinn_gc.h)

```c
static inline void compact_post_traces (post_event_buffer_t *post_event_buffers) {
  static uint32_t start_addr = 0;
  static uint32_t end_addr = 0;
  static uint32_t end_of_last_compaction_address = 0;
  if (start_addr == 0) {
    start_addr = post_event_buffers -> start_address;
    end_addr = post_event_buffers -> start_address
               + (post_event_buffers -> size / COMPACTOR_FRAGMENTATION_FACTOR);
    end_of_last_compaction_address = start_addr;
  } else {
    start_addr += post_event_buffers -> size / COMPACTOR_FRAGMENTATION_FACTOR;
    end_addr += post_event_buffers -> size / COMPACTOR_FRAGMENTATION_FACTOR;
  }
  int *init_address = address_in_sdram;
  int overall_size = 0;
  for (int i = 0; i < post_event_buffers -> n_neurons; i++) {
    if ((post_event_buffers -> buffers)[i].times >= start_addr
        & (post_event_buffers -> buffers)[i].times <= end_addr) {
      sark_block_copy (address_in_sdram, buffers[i].times, buffers[i].size);
      int traces_offset = (void*)buffers[i].traces - (void*)buffers[i].times;
      buffers[i].times = end_of_last_compaction_address + overall_size;
      buffers[i].traces = (void *)buffers[i].times + traces_offset;
      overall_size += buffers[i].size;
      address_in_sdram += buffers[i].size;
    }
  }
  address_in_sdram = init_address;
  int *addr = (int*)(end_of_last_compaction_address + overall_size - 4);
  addr[0] = -1;
  spin1_dma_transfer (2, init_address, end_of_last_compaction_address,
                      DMA_READ, overall_size);
  /* busy-wait until *addr != -1 */
  end_of_last_compaction_address += overall_size;
  if (end_addr >= post_event_buffers -> end_of_last_buffer) {
    post_event_buffers -> end_of_last_buffer = end_of_last_compaction_address;
    start_addr = 0;
  }
}
```
The three `static` cursor variables become an explicit `CompactCursor`
(`start_addr = 0` encodes the fresh-sweep state, as in the C).  The copy
to SDRAM staging plus the DMA writeback is modelled as: collect the
selected buffers' `(source, length)` segments (the staging copies read
the pre-call memory — all staging happens before the sentinel write and
the writeback), then overwrite
`[end_of_last_compaction_address, ... + overall_size)` with the
concatenated staged bytes.  The sentinel write `addr[0] = -1` is a real
memory effect: when `overall_size > 0` the writeback overwrites it, but
when the fragment selected no buffer it survives (and the busy-wait polls
a word a zero-length DMA never changes). -/

structure CompactCursor where
  start_addr : Nat
  end_addr : Nat
  eolca : Nat
deriving DecidableEq

/-- The selection loop of `compact_post_traces`: walk the buffers in index
order with running packed size `ov`; a buffer whose `times` lies in
`[sa, ea]` (both bounds inclusive, as in the C) is staged and its record
repointed to `eolca + ov`.  Returns the updated records, the staged
`(source, length)` segments in order, and the total staged size. -/
def compactSelect (sa ea eolca : Nat) : Nat → List PostEventHistory →
    List PostEventHistory × List (Nat × Nat) × Nat
  | ov, [] => ([], [], ov)
  | ov, b :: rest =>
    if sa ≤ b.times ∧ b.times ≤ ea then
      ({ b with times := eolca + ov, traces := eolca + ov + (b.traces - b.times) } ::
          (compactSelect sa ea eolca (ov + b.size) rest).1,
       (b.times, b.size) :: (compactSelect sa ea eolca (ov + b.size) rest).2.1,
       (compactSelect sa ea eolca (ov + b.size) rest).2.2)
    else
      (b :: (compactSelect sa ea eolca ov rest).1,
       (compactSelect sa ea eolca ov rest).2.1,
       (compactSelect sa ea eolca ov rest).2.2)

/-- Read byte offset `o` of the staged block: the concatenation of the
staged segments, each read from the pre-call memory. -/
def stagedRead (m : Mem) : List (Nat × Nat) → Nat → Nat
  | [], _ => 0
  | (src, len) :: rest, o => if o < len then m (src + o) else stagedRead m rest (o - len)

/-- One invocation of `compact_post_traces`. -/
def compact_post_traces (pb : Arena) (buffers : List PostEventHistory)
    (cur : CompactCursor) (m : Mem) :
    Arena × List PostEventHistory × CompactCursor × Mem :=
  let frag := pb.size / COMPACTOR_FRAGMENTATION_FACTOR
  let sa := if cur.start_addr = 0 then pb.start_address else cur.start_addr + frag
  let ea := if cur.start_addr = 0 then pb.start_address + frag else cur.end_addr + frag
  let eolca := if cur.start_addr = 0 then pb.start_address else cur.eolca
  let sel := compactSelect sa ea eolca 0 buffers
  let ov := sel.2.2
  let m1 := writeW m (eolca + ov - 4) SENTINEL
  let m2 : Mem := fun a =>
    if eolca ≤ a ∧ a < eolca + ov then stagedRead m sel.2.1 (a - eolca) else m1 a
  if pb.end_of_last_buffer ≤ ea then
    ({ pb with end_of_last_buffer := eolca + ov }, sel.1, ⟨0, ea, eolca + ov⟩, m2)
  else
    (pb, sel.1, ⟨sa, ea, eolca + ov⟩, m2)

/-- Runs `n` successive invocations of `compact_post_traces`. -/
def compactRun : Nat → Arena × List PostEventHistory × CompactCursor × Mem →
    Arena × List PostEventHistory × CompactCursor × Mem
  | 0, s => s
  | n + 1, s => compactRun n (compact_post_traces s.1 s.2.1 s.2.2.1 s.2.2.2)

/-! ## Initialization (`post_events_init_buffers`, post_events.h)

```c
static inline post_event_history_t *post_events_init_buffers(uint32_t n_neurons) {
    while (TRACE_SIZE % 4 != 0) TRACE_SIZE++;
    post_event_history_t *post_event_history =
        (post_event_history_t*) spin1_malloc(n_neurons * sizeof(post_event_history_t));
    void* post_event_data =
            spin1_malloc(n_neurons * MAX_POST_SYNAPTIC_EVENTS * TRACE_SIZE);
    post_event_buffers.start_address = post_event_data;
    post_event_buffers.n_neurons = n_neurons;
    post_event_buffers.buffers = post_event_history;
    post_event_buffers.end_of_last_buffer =
        post_event_data + n_neurons * MAX_POST_SYNAPTIC_EVENTS * TRACE_SIZE;
    for (int i = 0; i < n_neurons; i++) {
      post_event_history[i].times = post_event_data;
      post_event_history[i].traces =
          (void*)post_event_history[i].times + MAX_POST_SYNAPTIC_EVENTS*sizeof(uint32_t);
      post_event_data += MAX_POST_SYNAPTIC_EVENTS * TRACE_SIZE;
    }
    block_t* extra_space =
        spin1_malloc(n_neurons * EXTRA_HISTORY_TRACE_SPACE_FACTOR * TRACE_SIZE);
    post_event_buffers.size =
        n_neurons * (MAX_POST_SYNAPTIC_EVENTS + EXTRA_HISTORY_TRACE_SPACE_FACTOR) * TRACE_SIZE;
    address_in_sdram = (int*) sark_xalloc (sv->sdram_heap, post_event_buffers.size, 0, 1);
    if (post_event_history == NULL || post_event_data == NULL || extra_space == NULL) {
        log_error("Unable to allocate global STDP structures - Out of DTCM");
        return NULL;
    }
    for (uint32_t n = 0; n < n_neurons; n++) {
        post_event_history[n].times[0] = 0;
        post_event_history[n].traces[0] = timing_get_initial_post_trace();
        post_event_history[n].count_minus_one = 0;
        post_event_history[n].size = MAX_POST_SYNAPTIC_EVENTS * TRACE_SIZE;
    }
    return post_event_history;
}
```
The three `spin1_malloc` results are parameters (`Option Nat`, `none` for
a failed reservation, which in C yields the null pointer `0`).  Crucially,
the null check tests `post_event_data` *after* the pointer-assignment loop
advanced it by `n_neurons * MAX_POST_SYNAPTIC_EVENTS * TRACE_SIZE` bytes,
which the embedding reproduces.  The `sark_xalloc` for the SDRAM staging
area is never checked at all and has no effect on the returned state. -/

/-- Modelled from the spec: `timing_get_initial_post_trace()` is declared
in the timing-rule headers outside the files at hand; the spec calls it
an implementation-defined "initial trace" value, so it is an opaque
constant here. -/
def timing_get_initial_post_trace : Nat := 0

/-- The placeholder-initialisation loop: for each neuron `k` (ascending),
write time `0` and the initial trace at slots 0 of its `times`/`traces`
arrays. -/
def initPlaceholders (data tr : Nat) : Nat → Mem → Mem
  | 0, m => m
  | k + 1, m =>
      writeW
        (writeW (initPlaceholders data tr k m)
          (data + k * (MAX_POST_SYNAPTIC_EVENTS * TRACE_SIZE)) 0)
        (data + k * (MAX_POST_SYNAPTIC_EVENTS * TRACE_SIZE) + MAX_POST_SYNAPTIC_EVENTS * 4)
        tr

/-- Initialization `post_events_init_buffers`, with the three DTCM reservations passed in
as `Option Nat` (the address, or `none` = null). -/
def post_events_init_buffers (n : Nat) (hdrAlloc dataAlloc extraAlloc : Option Nat) (m : Mem) :
    Option (Arena × List PostEventHistory × Mem) :=
  let data := dataAlloc.getD 0
  let hdr := hdrAlloc.getD 0
  let extra := extraAlloc.getD 0
  if hdr = 0 ∨ data + n * (MAX_POST_SYNAPTIC_EVENTS * TRACE_SIZE) = 0 ∨ extra = 0 then
    none
  else
    some
      ({ start_address := data,
         size := n * (MAX_POST_SYNAPTIC_EVENTS + EXTRA_HISTORY_TRACE_SPACE_FACTOR) * TRACE_SIZE,
         end_of_last_buffer := data + n * (MAX_POST_SYNAPTIC_EVENTS * TRACE_SIZE) },
       (List.range n).map (fun i =>
         { count_minus_one := 0,
           times := data + i * (MAX_POST_SYNAPTIC_EVENTS * TRACE_SIZE),
           traces := data + i * (MAX_POST_SYNAPTIC_EVENTS * TRACE_SIZE)
                     + MAX_POST_SYNAPTIC_EVENTS * 4,
           size := MAX_POST_SYNAPTIC_EVENTS * TRACE_SIZE }),
       initPlaceholders data timing_get_initial_post_trace n m)

/-! ## Whole-system state and operation sequences

The arena, the buffer array, the compactor's static cursor and the
memory, with the four mutating operations the spec names (Append,
Extension, Compaction, Scan) dispatching to the embedded functions
above.  An `append`/`extendOp` with an out-of-range neuron index, or a
failing standalone extension, leaves the state unchanged. -/

inductive GCOp where
  | append (i time trace : Nat)
  | extendOp (i : Nat)
  | compact
  | scan (horizon : Nat)

structure GCState where
  pb : Arena
  buffers : List PostEventHistory
  cur : CompactCursor
  mem : Mem

def gcStep : GCOp → GCState → GCState
  | .append i t tr, s =>
    match s.buffers.get? i with
    | none => s
    | some b =>
      { s with pb := (post_events_add t s.pb b tr s.mem).1,
               buffers := s.buffers.set i (post_events_add t s.pb b tr s.mem).2.1,
               mem := (post_events_add t s.pb b tr s.mem).2.2 }
  | .extendOp i, s =>
    match s.buffers.get? i with
    | none => s
    | some b =>
      match extend_hist_trace_buffer s.pb b s.mem with
      | none => s
      | some (pb2, b2, m2) =>
        { s with pb := pb2, buffers := s.buffers.set i b2, mem := m2 }
  | .compact, s =>
    { pb := (compact_post_traces s.pb s.buffers s.cur s.mem).1,
      buffers := (compact_post_traces s.pb s.buffers s.cur s.mem).2.1,
      cur := (compact_post_traces s.pb s.buffers s.cur s.mem).2.2.1,
      mem := (compact_post_traces s.pb s.buffers s.cur s.mem).2.2.2 }
  | .scan h, s =>
    { s with buffers := (scan_history_traces h s.buffers s.mem).1,
             mem := (scan_history_traces h s.buffers s.mem).2 }

def gcRun : List GCOp → GCState → GCState
  | [], s => s
  | op :: ops, s => gcRun ops (gcStep op s)

/-- The freshly initialized 16-neuron system (all reservations succeed;
data region at 1000), used by the ordering-invariant analysis. -/
def gcInit16 : GCState :=
  match post_events_init_buffers 16 (some 5000) (some 1000) (some 8000) (fun _ => 0) with
  | some (pb, bs, m) => { pb := pb, buffers := bs, cur := ⟨0, 0, 0⟩, mem := m }
  | none => { pb := ⟨0, 0, 0⟩, buffers := [], cur := ⟨0, 0, 0⟩, mem := fun _ => 0 }

/-- The stored timestamps of buffer `i` of a system state. -/
def timesListAt (s : GCState) (i : Nat) : List Nat :=
  match s.buffers.get? i with
  | some b => timesList s.mem b
  | none => []

/-- Checks `times[0..count)` is strictly ascending, executably. -/
def strictAscending : List Nat → Bool
  | [] => true
  | [_] => true
  | x :: y :: rest => decide (x < y) && strictAscending (y :: rest)

theorem writeW_same (m : Mem) (a v : Nat) : writeW m a v a = v := by
  simp [writeW]

theorem writeW_other (m : Mem) (a v x : Nat) (h : x ≠ a) : writeW m a v x = m x := by
  simp [writeW, h]

theorem wordsOf_of_dvd (n : Nat) (h : 4 ∣ n) : 4 * wordsOf n = n := by
  unfold wordsOf
  rcases h with ⟨k, rfl⟩
  simp [Nat.mul_mod_right, Nat.mul_div_cancel_left]

/-- When the destination does not overlap the source from above, the
sequential quad loop behaves like a single bulk copy of its whole range
(no chunk ever reads a cell a previous chunk wrote). -/
theorem copyQuads_eq :
    ∀ (q src dest : Nat) (m : Mem), dest ≤ src ∨ src + 16 * q ≤ dest →
      ∀ a, copyQuads src dest q m a =
        if dest ≤ a ∧ a < dest + 16 * q then m (src + (a - dest)) else m a := by
  intro q
  induction q with
  | zero =>
    intro src dest m _ a
    rw [copyQuads, if_neg (by omega)]
  | succ q ih =>
    intro src dest m hsep a
    rw [copyQuads, ih (src + 16) (dest + 16) _ (by omega) a]
    rcases Nat.lt_or_ge a (dest + 16) with hlow | hhigh
    · rw [if_neg (by omega)]
      unfold copyChunk
      rcases Nat.lt_or_ge a dest with h0 | h0
      · rw [if_neg (by omega), if_neg (by omega)]
      · rw [if_pos ⟨h0, by omega⟩, if_pos ⟨h0, by omega⟩]
    · rcases Nat.lt_or_ge a (dest + 16 + 16 * q) with hmid | htop
      · rw [if_pos ⟨by omega, hmid⟩, if_pos ⟨by omega, by omega⟩]
        unfold copyChunk
        rw [if_neg (by omega)]
        congr 1
        omega
      · rw [if_neg (by omega), if_neg (by omega)]
        unfold copyChunk
        rw [if_neg (by omega)]

/-- When the destination does not overlap the source from above, the
sequential single-word loop behaves like a single bulk copy of its whole
range. -/
theorem copyWordsSeq_eq :
    ∀ (k src dest : Nat) (m : Mem), dest ≤ src ∨ src + 4 * k ≤ dest →
      ∀ a, copyWordsSeq src dest k m a =
        if dest ≤ a ∧ a < dest + 4 * k then m (src + (a - dest)) else m a := by
  intro k
  induction k with
  | zero =>
    intro src dest m _ a
    rw [copyWordsSeq, if_neg (by omega)]
  | succ k ih =>
    intro src dest m hsep a
    rw [copyWordsSeq, ih (src + 4) (dest + 4) _ (by omega) a]
    rcases Nat.lt_or_ge a (dest + 4) with hlow | hhigh
    · rw [if_neg (by omega)]
      unfold copyChunk
      rcases Nat.lt_or_ge a dest with h0 | h0
      · rw [if_neg (by omega), if_neg (by omega)]
      · rw [if_pos ⟨h0, by omega⟩, if_pos ⟨h0, by omega⟩]
    · rcases Nat.lt_or_ge a (dest + 4 + 4 * k) with hmid | htop
      · rw [if_pos ⟨by omega, hmid⟩, if_pos ⟨by omega, by omega⟩]
        unfold copyChunk
        rw [if_neg (by omega)]
        congr 1
        omega
      · rw [if_neg (by omega), if_neg (by omega)]
        unfold copyChunk
        rw [if_neg (by omega)]

/-- Whole-copy equivalence: when the destination does not overlap the
source from above, `sark_block_copy` equals the bulk copy of its
`wordsOf n` words.  (On a forward overlap this fails — see the C10
counterexample.) -/
theorem sark_block_copy_eq (m : Mem) (dest src n : Nat)
    (hsep : dest ≤ src ∨ src + 4 * wordsOf n ≤ dest) :
    ∀ a, sark_block_copy m dest src n a =
      if dest ≤ a ∧ a < dest + 4 * wordsOf n then m (src + (a - dest)) else m a := by
  intro a
  rw [sark_block_copy]
  rw [copyWordsSeq_eq (wordsOf n % 4) (src + 16 * (wordsOf n / 4))
    (dest + 16 * (wordsOf n / 4)) _ (by omega) a]
  simp only [copyQuads_eq (wordsOf n / 4) src dest m (by omega)]
  split_ifs <;> first | rfl | omega | (congr 1; omega)

theorem sark_block_copy_inside (m : Mem) (dest src n a : Nat)
    (hsep : dest ≤ src ∨ src + 4 * wordsOf n ≤ dest)
    (h1 : dest ≤ a) (h2 : a < dest + 4 * wordsOf n) :
    sark_block_copy m dest src n a = m (src + (a - dest)) := by
  rw [sark_block_copy_eq m dest src n hsep a, if_pos ⟨h1, h2⟩]

theorem sark_block_copy_outside (m : Mem) (dest src n a : Nat)
    (hsep : dest ≤ src ∨ src + 4 * wordsOf n ≤ dest)
    (h : a < dest ∨ dest + 4 * wordsOf n ≤ a) :
    sark_block_copy m dest src n a = m a := by
  rw [sark_block_copy_eq m dest src n hsep a, if_neg (by omega)]

/-- Claim C10, counterexample: the claim asserts that for every byte
count `n` divisible by 4 the destination bytes afterwards equal the
*original* source bytes, with no restriction on the two ranges.  With
`src = 100`, `dest = 104`, `n = 8` (a forward overlap), the sequential
word loop first writes `dest[0] = src[0]` and then re-reads the
just-written word: the second destination word ends up `100`, while the
original source word at that offset is `104`. -/
theorem sark_block_copy_forward_overlap_smears :
    sark_block_copy (fun a => a) 104 100 8 108 = 100 ∧
    (fun (a : Nat) => a) (100 + (108 - 104)) = 104 ∧
    (100 : Nat) ≠ 104 := by
  refine ⟨by decide, by decide, by decide⟩

/-- Claim C10, amended: bulk-copy exactness of `sark_block_copy` holds
when the byte count `n` is a multiple of 4 *and the destination range
does not overlap the source from above* (`¬ (src < dest < src + n)`; the
sequential ascending copy then never re-reads a written word): the copy
rewrites exactly the `n` destination bytes (here: the `n / 4` words of
the destination range, which afterwards hold the original source words)
and leaves every cell outside `[dest, dest + n)` unchanged.  This is the
exactness Extension and Compaction rely on: their copies go to the free
frontier or to the disjoint SDRAM staging area, and every buffer's
byteSize is a multiple of the word-aligned stride.  (For `n` not a
multiple of 4 the code computes the word count as `n / 4 + n % 4`, so
the copied length need not equal `n`; on a forward overlap the
destination smears, per the counterexample.) -/
theorem sark_block_copy_exact (m : Mem) (dest src n : Nat) (h : 4 ∣ n)
    (hovl : ¬ (src < dest ∧ dest < src + n)) :
    (∀ a, dest ≤ a → a < dest + n →
        sark_block_copy m dest src n a = m (src + (a - dest))) ∧
    (∀ a, a < dest ∨ dest + n ≤ a → sark_block_copy m dest src n a = m a) := by
  have hw := wordsOf_of_dvd n h
  have hsep : dest ≤ src ∨ src + 4 * wordsOf n ≤ dest := by omega
  constructor
  · intro a h1 h2
    rw [sark_block_copy_eq m dest src n hsep a, if_pos ⟨h1, by omega⟩]
  · intro a ha
    rw [sark_block_copy_eq m dest src n hsep a, if_neg (by omega)]

/-- Witness for the amended C10 at a concrete input: copying 8 bytes from
address 100 to the disjoint address 200 moves both words and leaves the
word below and the word above the destination range untouched. -/
theorem sark_block_copy_exact_witness :
    ((4 ∣ 8) ∧ ¬ ((100 : Nat) < 200 ∧ (200 : Nat) < 100 + 8)) ∧
      (sark_block_copy (fun a => a) 200 100 8 200 = 100 ∧
       sark_block_copy (fun a => a) 200 100 8 204 = 104 ∧
       sark_block_copy (fun a => a) 200 100 8 196 = 196 ∧
       sark_block_copy (fun a => a) 200 100 8 208 = 208) := by
  refine ⟨⟨by decide, by decide⟩, ?_, ?_, ?_, ?_⟩
  · exact ((sark_block_copy_exact (fun a => a) 200 100 8 (by decide) (by decide)).1 200
      (by decide) (by decide)).trans (by decide)
  · exact ((sark_block_copy_exact (fun a => a) 200 100 8 (by decide) (by decide)).1 204
      (by decide) (by decide)).trans (by decide)
  · exact ((sark_block_copy_exact (fun a => a) 200 100 8 (by decide) (by decide)).2 196
      (Or.inl (by decide))).trans (by decide)
  · exact ((sark_block_copy_exact (fun a => a) 200 100 8 (by decide) (by decide)).2 208
      (Or.inr (by decide))).trans (by decide)

/-- Cells strictly below `base + 4` are untouched by the trace shift. -/
theorem shiftTracesUp_low (base : Nat) :
    ∀ (k : Nat) (m : Mem) (a : Nat), a < base + 4 → shiftTracesUp m base k a = m a := by
  intro k
  induction k with
  | zero =>
    intro m a ha
    exact writeW_other m (base + 4) (m base) a (by omega)
  | succ k ih =>
    intro m a ha
    rw [shiftTracesUp, ih _ a ha]
    exact writeW_other m _ _ a (by omega)

/-- Cells strictly above `base + 4*(k+1)` are untouched by the trace shift. -/
theorem shiftTracesUp_high (base : Nat) :
    ∀ (k : Nat) (m : Mem) (a : Nat), base + 4 * (k + 1) < a → shiftTracesUp m base k a = m a := by
  intro k
  induction k with
  | zero =>
    intro m a ha
    exact writeW_other m (base + 4) (m base) a (by omega)
  | succ k ih =>
    intro m a ha
    rw [shiftTracesUp, ih _ a (by omega)]
    exact writeW_other m _ _ a (by omega)

/-- After the shift, slot `j+1` holds the original slot `j`, for `j ≤ k`. -/
theorem shiftTracesUp_hit (base : Nat) :
    ∀ (k : Nat) (m : Mem) (j : Nat), j ≤ k →
      shiftTracesUp m base k (base + 4 * (j + 1)) = m (base + 4 * j) := by
  intro k
  induction k with
  | zero =>
    intro m j hj
    interval_cases j
    exact writeW_same m (base + 4) (m base)
  | succ k ih =>
    intro m j hj
    rw [shiftTracesUp]
    rcases Nat.lt_or_ge j (k + 1) with h | h
    · rw [ih _ j (by omega)]
      exact writeW_other m _ _ _ (by omega)
    · have hj2 : j = k + 1 := by omega
      subst hj2
      rw [shiftTracesUp_high base k _ _ (by omega), writeW_same]

/-- Claim C2, amended: the function `extend_hist_trace_buffer` returns failure exactly
when `frontier + targetBuffer.byteSize + stride` would *reach or exceed*
the arena's end address `start + size`.  In the embedding a `none` result
is the C `return false`, which happens before any mutation, so on failure
the buffer's offsets, count, byteSize, the arena frontier and all memory
are the caller's unchanged originals; the function is total (never
traps), and `none` is precisely the signal `post_events_add` uses to fall
back to shift-and-drop. -/
theorem extend_fail_iff (pb : Arena) (b : PostEventHistory) (m : Mem) :
    extend_hist_trace_buffer pb b m = none ↔
      pb.start_address + pb.size ≤ pb.end_of_last_buffer + b.size + TRACE_SIZE := by
  unfold extend_hist_trace_buffer
  split
  · simpa
  · simp only [reduceCtorEq, false_iff]
    omega

/-- Claim C1: Extension success postcondition.  For a buffer in a
well-formed arena (`count` events fit in both the `times` and `traces`
segments, the buffer lies below the frontier, and `byteSize` is a
multiple of the stride), if `extend_hist_trace_buffer` succeeds then:
every stored `(time, trace)` pair is preserved, `byteSize` grows by
exactly one stride, the count is unchanged, and the arena frontier ends
up equal to the end address of the grown buffer; when the target buffer
is the frontier owner (its end equals `end_of_last_buffer`) it grows in
place — `times` is not moved and no relocation copy happens, only the
`traces` base advances one word past the newly opened trailing time
slot; otherwise the buffer's whole span is copied to the frontier and
its `times`/`traces` offsets are updated to the new location, with the
`traces` segment shifted down one event-slot so that one free trailing
time slot opens. -/
theorem extend_success_postcondition
    (pb pb' : Arena) (b b' : PostEventHistory) (m m' : Mem)
    (hcap : b.times + 4 * (b.count_minus_one + 1) ≤ b.traces)
    (htr : b.traces + 4 * (b.count_minus_one + 1) ≤ b.times + b.size)
    (hsz : TRACE_SIZE ∣ b.size)
    (hfront : b.times + b.size ≤ pb.end_of_last_buffer)
    (hsucc : extend_hist_trace_buffer pb b m = some (pb', b', m')) :
    bufPairs m' b' = bufPairs m b ∧
    b'.size = b.size + TRACE_SIZE ∧
    b'.count_minus_one = b.count_minus_one ∧
    pb'.end_of_last_buffer = b'.times + b'.size ∧
    pb'.start_address = pb.start_address ∧
    pb'.size = pb.size ∧
    (b.times + b.size = pb.end_of_last_buffer →
        b'.times = b.times ∧ b'.traces = b.traces + 4) ∧
    (b.times + b.size ≠ pb.end_of_last_buffer →
        b'.times = pb.end_of_last_buffer ∧
        b'.traces = pb.end_of_last_buffer + (b.traces - b.times) + 4) := by
  have hT : TRACE_SIZE = 8 := rfl
  have h4 : 4 ∣ b.size := Nat.dvd_trans (by decide) hsz
  have hg : ¬ (pb.start_address + pb.size ≤ pb.end_of_last_buffer + b.size + TRACE_SIZE) := by
    intro hg
    rw [extend_hist_trace_buffer, if_pos hg] at hsucc
    exact Option.noConfusion hsucc
  by_cases hown : b.times + b.size = pb.end_of_last_buffer
  · -- frontier owner: in-place growth, no relocation copy
    have hext : extend_hist_trace_buffer pb b m =
        some ({ pb with end_of_last_buffer := b.times + (b.size + TRACE_SIZE) },
              { b with traces := b.traces + 4, size := b.size + TRACE_SIZE },
              shiftTracesUp m b.traces b.count_minus_one) := by
      rw [extend_hist_trace_buffer, if_neg hg]
      simp only [hown, ne_eq, not_true_eq_false, ite_false]
    rw [hext] at hsucc
    simp only [Option.some.injEq, Prod.mk.injEq] at hsucc
    obtain ⟨h1, h2, h3⟩ := hsucc
    subst h1 h2 h3
    refine ⟨?_, rfl, rfl, rfl, rfl, rfl, fun _ => ⟨rfl, rfl⟩, fun h => absurd hown h⟩
    unfold bufPairs
    apply List.map_congr_left
    intro i hi
    rw [List.mem_range] at hi
    have hi2 : i < b.count_minus_one + 1 := hi
    unfold eventAt
    simp only [Prod.mk.injEq]
    constructor
    · exact shiftTracesUp_low b.traces b.count_minus_one m _ (by omega)
    · have ha : b.traces + 4 + 4 * i = b.traces + 4 * (i + 1) := by omega
      rw [ha, shiftTracesUp_hit b.traces b.count_minus_one m i (by omega)]
  · -- relocation to the frontier
    have hfr : b.times ≤ b.traces := by omega
    have hoff : 4 * (b.count_minus_one + 1) ≤ b.traces - b.times := by omega
    have hofsz : (b.traces - b.times) + 4 * (b.count_minus_one + 1) ≤ b.size := by omega
    have hext : extend_hist_trace_buffer pb b m =
        some ({ pb with end_of_last_buffer := pb.end_of_last_buffer + (b.size + TRACE_SIZE) },
              { b with times := pb.end_of_last_buffer,
                       traces := pb.end_of_last_buffer + (b.traces - b.times) + 4,
                       size := b.size + TRACE_SIZE },
              shiftTracesUp (sark_block_copy m pb.end_of_last_buffer b.times b.size)
                (pb.end_of_last_buffer + (b.traces - b.times)) b.count_minus_one) := by
      rw [extend_hist_trace_buffer, if_neg hg]
      simp only [ne_eq, hown, not_false_eq_true, ite_true]
    rw [hext] at hsucc
    simp only [Option.some.injEq, Prod.mk.injEq] at hsucc
    obtain ⟨h1, h2, h3⟩ := hsucc
    subst h1 h2 h3
    refine ⟨?_, rfl, rfl, rfl, rfl, rfl, fun h => absurd h hown, fun _ => ⟨rfl, rfl⟩⟩
    unfold bufPairs
    apply List.map_congr_left
    intro i hi
    rw [List.mem_range] at hi
    have hi2 : i < b.count_minus_one + 1 := hi
    unfold eventAt
    simp only [Prod.mk.injEq]
    constructor
    · rw [shiftTracesUp_low _ b.count_minus_one _ _ (by omega)]
      rw [sark_block_copy_inside m _ _ _ _
        (Or.inr (by rw [wordsOf_of_dvd _ h4]; omega)) (by omega)
        (by rw [wordsOf_of_dvd _ h4]; omega)]
      congr 1
      omega
    · have ha : pb.end_of_last_buffer + (b.traces - b.times) + 4 + 4 * i =
          pb.end_of_last_buffer + (b.traces - b.times) + 4 * (i + 1) := by omega
      rw [ha, shiftTracesUp_hit _ b.count_minus_one _ i (by omega)]
      rw [sark_block_copy_inside m _ _ _ _
        (Or.inr (by rw [wordsOf_of_dvd _ h4]; omega)) (by omega)
        (by rw [wordsOf_of_dvd _ h4]; omega)]
      congr 1
      omega

/-- Witness for C1 at a concrete input.  Arena `[1000, 1096)` with
frontier `1032`; the single buffer `[1000, 1032)` holds two events
`(0, 50)` and `(7, 51)` and is the frontier owner, so extension succeeds
in place.  All well-formedness hypotheses are discharged concretely and
the conclusion is evaluated. -/
theorem extend_success_postcondition_witness :
    bufPairs
        (shiftTracesUp
          (fun a => if a = 1000 then 0 else if a = 1004 then 7 else
            if a = 1016 then 50 else if a = 1020 then 51 else 0) 1016 1)
        ⟨1, 1000, 1020, 40⟩ =
      bufPairs
        (fun a => if a = 1000 then 0 else if a = 1004 then 7 else
          if a = 1016 then 50 else if a = 1020 then 51 else 0)
        ⟨1, 1000, 1016, 32⟩ ∧
    (⟨1, 1000, 1020, 40⟩ : PostEventHistory).size = 32 + TRACE_SIZE := by
  have h := extend_success_postcondition ⟨1000, 96, 1032⟩ ⟨1000, 96, 1040⟩
    ⟨1, 1000, 1016, 32⟩ ⟨1, 1000, 1020, 40⟩
    (fun a => if a = 1000 then 0 else if a = 1004 then 7 else
      if a = 1016 then 50 else if a = 1020 then 51 else 0)
    (shiftTracesUp
      (fun a => if a = 1000 then 0 else if a = 1004 then 7 else
        if a = 1016 then 50 else if a = 1020 then 51 else 0) 1016 1)
    (by decide) (by decide) (by decide) (by decide) rfl
  exact ⟨h.1, h.2.1⟩

/-- Cells that are none of the loop's write targets are untouched by
`shufDown`. -/
theorem shufDown_untouched (tb pbase : Nat) :
    ∀ (k e : Nat) (m : Mem) (a : Nat),
      (∀ j, e ≤ j → j < e + k → a ≠ tb + 4 * (j - 1) ∧ a ≠ pbase + 4 * (j - 1)) →
      shufDown tb pbase e k m a = m a := by
  intro k
  induction k with
  | zero => intro e m a _; rfl
  | succ k ih =>
    intro e m a ha
    rw [shufDown]
    have he := ha e (le_refl e) (by omega)
    rw [ih (e + 1) _ a (fun j h1 h2 => ha j (by omega) (by omega))]
    rw [writeW_other _ _ _ _ he.2, writeW_other _ _ _ _ he.1]

/-- After `shufDown`, `times[i-1]` holds the original `times[i]`, for every
iteration index `i` actually executed, provided the `traces` base lies
above every touched `times` cell. -/
theorem shufDown_times_hit (tb pbase : Nat) :
    ∀ (k e : Nat) (m : Mem) (i : Nat), 1 ≤ e → e ≤ i → i < e + k →
      tb + 4 * (e + k) ≤ pbase →
      shufDown tb pbase e k m (tb + 4 * (i - 1)) = m (tb + 4 * i) := by
  intro k
  induction k with
  | zero => intro e m i _ h1 h2 _; omega
  | succ k ih =>
    intro e m i he h1 h2 hsep
    rw [shufDown]
    rcases Nat.lt_or_ge i (e + 1) with h | h
    · have hie : i = e := by omega
      rw [hie]
      rw [shufDown_untouched tb pbase k (e + 1) _ _
        (fun j hj1 hj2 => ⟨by omega, by omega⟩)]
      rw [writeW_other _ _ _ _ (by omega), writeW_same]
    · rw [ih (e + 1) _ i (by omega) h (by omega) (by omega)]
      rw [writeW_other _ _ _ _ (by omega), writeW_other _ _ _ _ (by omega)]

/-- After `shufDown`, `traces[i-1]` holds the original `traces[i]`, for
every iteration index `i` actually executed, under the same separation. -/
theorem shufDown_traces_hit (tb pbase : Nat) :
    ∀ (k e : Nat) (m : Mem) (i : Nat), 1 ≤ e → e ≤ i → i < e + k →
      tb + 4 * (e + k) ≤ pbase →
      shufDown tb pbase e k m (pbase + 4 * (i - 1)) = m (pbase + 4 * i) := by
  intro k
  induction k with
  | zero => intro e m i _ h1 h2 _; omega
  | succ k ih =>
    intro e m i he h1 h2 hsep
    rw [shufDown]
    rcases Nat.lt_or_ge i (e + 1) with h | h
    · have hie : i = e := by omega
      rw [hie]
      rw [shufDown_untouched tb pbase k (e + 1) _ _
        (fun j hj1 hj2 => ⟨by omega, by omega⟩)]
      rw [writeW_same, writeW_other _ _ _ _ (by omega)]
    · rw [ih (e + 1) _ i (by omega) h (by omega) (by omega)]
      rw [writeW_other _ _ _ _ (by omega), writeW_other _ _ _ _ (by omega)]

/-- Claim C3, counterexample: the claim asserts that on *every* saturated
buffer whose Extension fails, `post_events_add` discards exactly the
event at index 1 and never evicts the placeholder at index 0.  A
saturated buffer with a single entry (`count_minus_one = 0`, reachable
because `scan_history_traces` can shrink a buffer to one event-slot)
falsifies it: the shuffle loop `for (e = 2; e <= 0; ...)` does not run
and the new time is written at index `count_minus_one = 0`, overwriting
the placeholder slot itself — afterwards `times[0] = 9 ≠ 0`. -/
theorem post_events_add_evicts_placeholder :
    (post_events_add 9 ⟨1000, 16, 1008⟩ ⟨0, 1000, 1004, 8⟩ 70
        (fun a => if a = 1000 then 0 else if a = 1004 then 55 else 0)).2.2 1000 = 9 ∧
    (9 : Nat) ≠ 0 := by
  exact ⟨rfl, by decide⟩

/-- Claim C3, amended: for every saturated buffer *holding at least two
events* (`count_minus_one ≥ 1`) on which Extension fails,
`post_events_add` keeps the arena and the buffer record (hence `count`)
unchanged, retains the entry at index 0 (the placeholder slot), discards
exactly the event at index 1 by shifting all later entries down one
slot — each surviving `times[i]` keeping its `traces[i]` — and writes
the new `(time, trace)` pair at the last slot. -/
theorem shift_and_drop_postcondition
    (pb : Arena) (b : PostEventHistory) (m : Mem) (time trace : Nat)
    (hsat : b.times + 4 * (b.count_minus_one + 1) = b.traces)
    (hfail : pb.start_address + pb.size ≤ pb.end_of_last_buffer + b.size + TRACE_SIZE)
    (hc : 1 ≤ b.count_minus_one) :
    (post_events_add time pb b trace m).1 = pb ∧
    (post_events_add time pb b trace m).2.1 = b ∧
    eventAt (post_events_add time pb b trace m).2.2 b 0 = eventAt m b 0 ∧
    (∀ i, 1 ≤ i → i + 1 ≤ b.count_minus_one →
        eventAt (post_events_add time pb b trace m).2.2 b i = eventAt m b (i + 1)) ∧
    eventAt (post_events_add time pb b trace m).2.2 b b.count_minus_one = (time, trace) := by
  have hnone : extend_hist_trace_buffer pb b m = none := (extend_fail_iff pb b m).mpr hfail
  have hadd : post_events_add time pb b trace m = shuffleAppend time trace pb b m := by
    rw [post_events_add, if_pos hsat, hnone]
  rw [hadd]
  unfold shuffleAppend
  refine ⟨rfl, rfl, ?_, ?_, ?_⟩
  · unfold eventAt
    simp only [Nat.mul_zero, Nat.add_zero, Prod.mk.injEq]
    constructor
    · rw [writeW_other _ _ _ _ (by omega), writeW_other _ _ _ _ (by omega)]
      exact shufDown_untouched _ _ _ _ _ _ (fun j hj1 hj2 => ⟨by omega, by omega⟩)
    · rw [writeW_other _ _ _ _ (by omega), writeW_other _ _ _ _ (by omega)]
      exact shufDown_untouched _ _ _ _ _ _ (fun j hj1 hj2 => ⟨by omega, by omega⟩)
  · intro i h1 h2
    unfold eventAt
    simp only [Prod.mk.injEq]
    constructor
    · rw [writeW_other _ _ _ _ (by omega), writeW_other _ _ _ _ (by omega)]
      have hi : b.times + 4 * i = b.times + 4 * ((i + 1) - 1) := by omega
      rw [hi, shufDown_times_hit b.times b.traces (b.count_minus_one - 1) 2 m (i + 1)
        (by omega) (by omega) (by omega) (by omega)]
    · rw [writeW_other _ _ _ _ (by omega), writeW_other _ _ _ _ (by omega)]
      have hi : b.traces + 4 * i = b.traces + 4 * ((i + 1) - 1) := by omega
      rw [hi, shufDown_traces_hit b.times b.traces (b.count_minus_one - 1) 2 m (i + 1)
        (by omega) (by omega) (by omega) (by omega)]
  · unfold eventAt
    simp only [Prod.mk.injEq]
    constructor
    · rw [writeW_other _ _ _ _ (by omega), writeW_same]
    · rw [writeW_same]

/-- Witness for the amended C3 at a concrete input: a saturated two-event
buffer `times = [0, 5]`, `traces = [80, 81]` in an exhausted arena; the
append of `(9, 99)` keeps the placeholder `(0, 80)`, drops the event at
index 1 and stores `(9, 99)` at the last slot, with the record
unchanged. -/
theorem shift_and_drop_postcondition_witness :
    (post_events_add 9 ⟨1000, 24, 1016⟩ ⟨1, 1000, 1008, 16⟩ 99
        (fun a => if a = 1000 then 0 else if a = 1004 then 5 else
          if a = 1008 then 80 else if a = 1012 then 81 else 0)).2.1 =
      ⟨1, 1000, 1008, 16⟩ ∧
    eventAt (post_events_add 9 ⟨1000, 24, 1016⟩ ⟨1, 1000, 1008, 16⟩ 99
        (fun a => if a = 1000 then 0 else if a = 1004 then 5 else
          if a = 1008 then 80 else if a = 1012 then 81 else 0)).2.2
      ⟨1, 1000, 1008, 16⟩ 0 = (0, 80) ∧
    eventAt (post_events_add 9 ⟨1000, 24, 1016⟩ ⟨1, 1000, 1008, 16⟩ 99
        (fun a => if a = 1000 then 0 else if a = 1004 then 5 else
          if a = 1008 then 80 else if a = 1012 then 81 else 0)).2.2
      ⟨1, 1000, 1008, 16⟩ 1 = (9, 99) := by
  have h := shift_and_drop_postcondition ⟨1000, 24, 1016⟩ ⟨1, 1000, 1008, 16⟩
    (fun a => if a = 1000 then 0 else if a = 1004 then 5 else
      if a = 1008 then 80 else if a = 1012 then 81 else 0) 9 99
    (by decide) (by decide) (by decide)
  refine ⟨h.2.1, ?_, h.2.2.2.2⟩
  have h0 := h.2.2.1
  rw [h0]
  decide

theorem prefixLtCount_le (m : Mem) (h : Nat) :
    ∀ (k : Nat) (base : Nat), prefixLtCount m base h k ≤ k := by
  intro k
  induction k with
  | zero => intro base; exact le_refl 0
  | succ k ih =>
    intro base
    rw [prefixLtCount]
    split
    · exact Nat.succ_le_succ (ih (base + 4))
    · exact Nat.zero_le _

theorem prefixLtCount_lt (m : Mem) (h : Nat) :
    ∀ (k : Nat) (base : Nat) (j : Nat), j < prefixLtCount m base h k →
      m (base + 4 * j) < h := by
  intro k
  induction k with
  | zero => intro base j hj; simp [prefixLtCount] at hj
  | succ k ih =>
    intro base j hj
    rw [prefixLtCount] at hj
    by_cases hb : m base < h
    · rw [if_pos hb] at hj
      match j with
      | 0 => simpa using hb
      | j + 1 =>
        have := ih (base + 4) j (by omega)
        have ha : base + 4 + 4 * j = base + 4 * (j + 1) := by omega
        rwa [ha] at this
    · rw [if_neg hb] at hj
      omega

theorem prefixLtCount_stop (m : Mem) (h : Nat) :
    ∀ (k : Nat) (base : Nat), prefixLtCount m base h k < k →
      h ≤ m (base + 4 * prefixLtCount m base h k) := by
  intro k
  induction k with
  | zero => intro base hk; omega
  | succ k ih =>
    intro base hk
    rw [prefixLtCount] at hk ⊢
    by_cases hb : m base < h
    · rw [if_pos hb] at hk ⊢
      have := ih (base + 4) (by omega)
      have ha : base + 4 + 4 * prefixLtCount m (base + 4) h k =
          base + 4 * (prefixLtCount m (base + 4) h k + 1) := by omega
      rwa [ha] at this
    · rw [if_neg hb]
      simpa using Nat.le_of_not_lt hb

theorem shiftTracesDown_untouched (r base : Nat) :
    ∀ (k i : Nat) (m : Mem) (a : Nat), a < base + 4 * i ∨ base + 4 * (i + k) ≤ a →
      shiftTracesDown r base i k m a = m a := by
  intro k
  induction k with
  | zero => intro i m a _; rfl
  | succ k ih =>
    intro i m a ha
    rw [shiftTracesDown]
    rw [ih (i + 1) _ a (by omega)]
    exact writeW_other _ _ _ _ (by omega)

/-- Each executed iteration `j` of the trace compaction loop leaves
`traces[j] = `old `traces[j + r]` (for `r ≥ 1` the reads run ahead of
all writes, so every read sees the original memory). -/
theorem shiftTracesDown_hit (r base : Nat) (hr : 1 ≤ r) :
    ∀ (k i : Nat) (m : Mem) (j : Nat), i ≤ j → j < i + k →
      shiftTracesDown r base i k m (base + 4 * j) = m (base + 4 * (j + r)) := by
  intro k
  induction k with
  | zero => intro i m j h1 h2; omega
  | succ k ih =>
    intro i m j h1 h2
    rw [shiftTracesDown]
    rcases Nat.lt_or_ge j (i + 1) with h | h
    · have hji : j = i := by omega
      rw [hji]
      rw [shiftTracesDown_untouched r base k (i + 1) _ _ (Or.inl (by omega))]
      rw [writeW_same]
    · rw [ih (i + 1) _ j h (by omega)]
      exact writeW_other _ _ _ _ (by omega)

/-- The function `scanOneBuffer` writes only inside the buffer's traces segment
`[traces, traces + 4*(count_minus_one - r) + 4)`; in particular any cell
below `traces` or at/after `times + size` is untouched (using that the
traces segment fits in the buffer span). -/
theorem scanOneBuffer_frame (oldest : Nat) (b : PostEventHistory) (m : Mem) (a : Nat)
    (htr : b.traces + 4 * (b.count_minus_one + 1) ≤ b.times + b.size)
    (ha : a < b.traces ∨ b.times + b.size ≤ a) :
    (scanOneBuffer oldest b m).2 a = m a := by
  unfold scanOneBuffer
  split
  · rfl
  · simp only
    apply shiftTracesDown_untouched
    have := prefixLtCount_le m oldest b.count_minus_one b.times
    rcases ha with h | h
    · exact Or.inl (by omega)
    · exact Or.inr (by omega)

/-- In a strictly ascending block of `n+1` times, values are monotone in
the index. -/
theorem ascend_le (m : Mem) (t n : Nat)
    (hasc : ∀ i, i < n → m (t + 4 * i) < m (t + 4 * (i + 1))) :
    ∀ j, j ≤ n → ∀ i, i ≤ j → m (t + 4 * i) ≤ m (t + 4 * j) := by
  intro j
  induction j with
  | zero =>
    intro _ i hi
    interval_cases i
    exact le_refl _
  | succ j ih =>
    intro hj i hi
    rcases Nat.lt_or_ge i (j + 1) with h | h
    · exact le_trans (ih (by omega) i (by omega)) (le_of_lt (hasc j (by omega)))
    · have hij : i = j + 1 := by omega
      rw [hij]

/-- The counter `prefixLtCount` only reads the `k` cells `base, base+4` and so on. -/
theorem prefixLtCount_congr (m1 m : Mem) (h : Nat) :
    ∀ (k : Nat) (base : Nat), (∀ j, j < k → m1 (base + 4 * j) = m (base + 4 * j)) →
      prefixLtCount m1 base h k = prefixLtCount m base h k := by
  intro k
  induction k with
  | zero => intro base _; rfl
  | succ k ih =>
    intro base hcells
    rw [prefixLtCount, prefixLtCount]
    have h0 : m1 base = m base := by
      have := hcells 0 (by omega)
      simpa using this
    rw [h0]
    split
    · rw [ih (base + 4) (fun j hj => by
        have := hcells (j + 1) (by omega)
        have ha : base + 4 * (j + 1) = base + 4 + 4 * j := by omega
        rwa [ha] at this)]
    · rfl

/-- Per-buffer postcondition of the scanner: with
`r = prefixLtCount m times oldest count_minus_one` recycled entries,
the buffer's `times` offset advances by `r` slots, `traces` stays,
`count_minus_one` and `size` shrink accordingly, the surviving pairs are
exactly the index-aligned suffix of the original pairs, the shrunken
span stays inside the original one, and (given strictly ascending times)
every surviving entry other than the newest is `≥ oldest`. -/
theorem scanOneBuffer_spec (oldest r : Nat) (b : PostEventHistory) (m : Mem)
    (hr : r = prefixLtCount m b.times oldest b.count_minus_one)
    (hcap : b.times + 4 * (b.count_minus_one + 1) ≤ b.traces)
    (htr : b.traces + 4 * (b.count_minus_one + 1) ≤ b.times + b.size)
    (hasc : ∀ i, i < b.count_minus_one → m (b.times + 4 * i) < m (b.times + 4 * (i + 1))) :
    (scanOneBuffer oldest b m).1 =
      ⟨b.count_minus_one - r, b.times + 4 * r, b.traces, b.size - r * TRACE_SIZE⟩ ∧
    bufPairs (scanOneBuffer oldest b m).2 (scanOneBuffer oldest b m).1 =
      (bufPairs m b).drop r ∧
    b.times ≤ b.times + 4 * r ∧
    (b.times + 4 * r) + (b.size - r * TRACE_SIZE) ≤ b.times + b.size ∧
    (∀ i, i < b.count_minus_one - r →
      oldest ≤ (scanOneBuffer oldest b m).2 (b.times + 4 * r + 4 * i)) := by
  have hrle : r ≤ b.count_minus_one := hr ▸ prefixLtCount_le m oldest b.count_minus_one b.times
  have hT : TRACE_SIZE = 8 := rfl
  by_cases hr0 : prefixLtCount m b.times oldest b.count_minus_one = 0
  · have hr00 : r = 0 := by omega
    subst hr00
    have hone : scanOneBuffer oldest b m = (b, m) := by
      unfold scanOneBuffer
      rw [if_pos hr0]
    rw [hone]
    refine ⟨?_, by simp, by omega, by omega, ?_⟩
    · cases b
      simp
    · intro i hi
      simp only
      have := hr ▸ prefixLtCount_stop m oldest b.count_minus_one b.times (by omega)
      simp only [hr0, Nat.mul_zero, Nat.add_zero] at this ⊢
      calc oldest ≤ m (b.times + 4 * 0) := by simpa using this
        _ ≤ m (b.times + 4 * i) := ascend_le m b.times b.count_minus_one hasc i (by omega) 0 (by omega)
  · have hone : scanOneBuffer oldest b m =
        ({ b with times := b.times + 4 * prefixLtCount m b.times oldest b.count_minus_one,
                  size := b.size - prefixLtCount m b.times oldest b.count_minus_one * TRACE_SIZE,
                  count_minus_one :=
                    b.count_minus_one - prefixLtCount m b.times oldest b.count_minus_one },
         shiftTracesDown (prefixLtCount m b.times oldest b.count_minus_one) b.traces 0
           (b.count_minus_one - prefixLtCount m b.times oldest b.count_minus_one + 1) m) := by
      unfold scanOneBuffer
      rw [if_neg hr0]
    rw [hone, ← hr]
    have hr1 : 1 ≤ r := by omega
    refine ⟨rfl, ?_, by omega, by simp only [hT]; omega, ?_⟩
    · unfold bufPairs
      apply List.ext_getElem
      · simp only [List.length_map, List.length_range, List.length_drop]
        omega
      · intro i h1 h2
        simp only [List.length_map, List.length_range] at h1
        rw [List.getElem_map, List.getElem_range, List.getElem_drop,
          List.getElem_map, List.getElem_range]
        unfold eventAt
        simp only [Prod.mk.injEq]
        constructor
        · rw [shiftTracesDown_untouched _ _ _ _ _ _ (Or.inl (by omega))]
          congr 1
          omega
        · rw [shiftTracesDown_hit r b.traces hr1 _ 0 m i (by omega) (by omega)]
          congr 1
          omega
    · intro i hi
      simp only
      rw [shiftTracesDown_untouched _ _ _ _ _ _ (Or.inl (by omega))]
      have hstop := hr ▸ prefixLtCount_stop m oldest b.count_minus_one b.times (by omega)
      calc oldest ≤ m (b.times + 4 * r) := hstop
        _ ≤ m (b.times + 4 * (r + i)) :=
          ascend_le m b.times b.count_minus_one hasc (r + i) (by omega) r (by omega)
        _ = m (b.times + 4 * r + 4 * i) := by congr 1; omega

/-- Scanning `scan_history_traces` preserves the number of buffers. -/
theorem scan_history_traces_length (oldest : Nat) :
    ∀ (bs : List PostEventHistory) (m : Mem),
      (scan_history_traces oldest bs m).1.length = bs.length := by
  intro bs
  induction bs with
  | nil => intro m; rfl
  | cons b rest ih =>
    intro m
    rw [scan_history_traces]
    simp [ih]

/-- Frame property of the whole scan: a cell below every buffer's
`traces` segment or at/after every buffer's span end is untouched. -/
theorem scan_history_traces_frame (oldest : Nat) :
    ∀ (bs : List PostEventHistory) (m : Mem) (a : Nat),
      (∀ c ∈ bs, c.traces + 4 * (c.count_minus_one + 1) ≤ c.times + c.size) →
      (∀ c ∈ bs, a < c.traces ∨ c.times + c.size ≤ a) →
      (scan_history_traces oldest bs m).2 a = m a := by
  intro bs
  induction bs with
  | nil => intro m a _ _; rfl
  | cons b rest ih =>
    intro m a hwf ha
    rw [scan_history_traces]
    simp only
    rw [ih _ a (fun c hc => hwf c (List.mem_cons_of_mem b hc))
      (fun c hc => ha c (List.mem_cons_of_mem b hc))]
    exact scanOneBuffer_frame oldest b m a (hwf b (List.mem_cons_self b rest))
      (ha b (List.mem_cons_self b rest))

/-- Claim C6, amended: after `scan_history_traces(horizon)` each buffer's
surviving `(time, trace)` pairs are exactly the suffix of its previous
pairs (kept index-aligned), with `count_minus_one` reduced by the number
`r` of recycled events, `byteSize` reduced by `r` strides and the `times`
offset advanced by `r` slots; the buffer is not relocated (its new span
lies inside its old span, and no other buffer's contents change — each
buffer `k` satisfies its own characterization, with `r = 0` leaving it
intact); and no buffer retains an event with `time < horizon` *other
than possibly its single newest entry* (the original claim's exception
for the time-0 placeholder is wrong — the placeholder is not specially
protected; the prefix loop is merely capped at `count - 1`, so only the
newest entry may survive below the horizon). -/
theorem scan_history_traces_postcondition
    (oldest : Nat) (bs : List PostEventHistory) (m : Mem)
    (hwf : ∀ b ∈ bs, b.times + 4 * (b.count_minus_one + 1) ≤ b.traces ∧
        b.traces + 4 * (b.count_minus_one + 1) ≤ b.times + b.size)
    (hdisj : bs.Pairwise (fun b c => b.times + b.size ≤ c.times ∨ c.times + c.size ≤ b.times))
    (hasc : ∀ b ∈ bs, ∀ i, i < b.count_minus_one →
        m (b.times + 4 * i) < m (b.times + 4 * (i + 1))) :
    ∀ (k : Nat) (b b' : PostEventHistory),
      bs.get? k = some b → (scan_history_traces oldest bs m).1.get? k = some b' →
      b' = ⟨b.count_minus_one - prefixLtCount m b.times oldest b.count_minus_one,
            b.times + 4 * prefixLtCount m b.times oldest b.count_minus_one,
            b.traces,
            b.size - prefixLtCount m b.times oldest b.count_minus_one * TRACE_SIZE⟩ ∧
      bufPairs (scan_history_traces oldest bs m).2 b' =
        (bufPairs m b).drop (prefixLtCount m b.times oldest b.count_minus_one) ∧
      b.times ≤ b'.times ∧ b'.times + b'.size ≤ b.times + b.size ∧
      (∀ i, i < b'.count_minus_one →
        oldest ≤ (scan_history_traces oldest bs m).2 (b'.times + 4 * i)) := by
  induction bs generalizing m with
  | nil =>
    intro k b b' hb _
    simp at hb
  | cons b0 rest ih =>
    intro k b b' hb hb'
    have hwf0 := hwf b0 (List.mem_cons_self b0 rest)
    have hd := List.pairwise_cons.mp hdisj
    have hframe_tail : ∀ c ∈ rest, ∀ a, c.times ≤ a → a < c.times + c.size →
        (scanOneBuffer oldest b0 m).2 a = m a := by
      intro c hc a h1 h2
      apply scanOneBuffer_frame oldest b0 m a hwf0.2
      rcases hd.1 c hc with h | h
      · exact Or.inr (by omega)
      · exact Or.inl (by
          have h1t := (hwf c (List.mem_cons_of_mem b0 hc)).1
          have h0t := hwf0.1
          omega)
    rw [scan_history_traces] at hb' ⊢
    match k with
    | 0 =>
      rw [List.get?_cons_zero, Option.some.injEq] at hb hb'
      have hb2 : b = b0 := hb.symm
      subst hb2
      have spec := scanOneBuffer_spec oldest
        (prefixLtCount m b.times oldest b.count_minus_one) b m rfl hwf0.1 hwf0.2
        (hasc b (List.mem_cons_self b rest))
      have hrle := prefixLtCount_le m oldest b.count_minus_one b.times
      have hb'eq : b' = ⟨b.count_minus_one - prefixLtCount m b.times oldest b.count_minus_one,
          b.times + 4 * prefixLtCount m b.times oldest b.count_minus_one,
          b.traces,
          b.size - prefixLtCount m b.times oldest b.count_minus_one * TRACE_SIZE⟩ := by
        rw [← hb', spec.1]
      have hspan : ∀ a, b.times ≤ a → a < b.times + b.size →
          (scan_history_traces oldest rest (scanOneBuffer oldest b m).2).2 a =
            (scanOneBuffer oldest b m).2 a := by
        intro a h1 h2
        apply scan_history_traces_frame
        · intro c hc
          exact (hwf c (List.mem_cons_of_mem b hc)).2
        · intro c hc
          rcases hd.1 c hc with h | h
          · exact Or.inl (by
              have := (hwf c (List.mem_cons_of_mem b hc)).1
              omega)
          · exact Or.inr (by omega)
      refine ⟨hb'eq, ?_, ?_, ?_, ?_⟩
      · have hcells : bufPairs
            (scan_history_traces oldest rest (scanOneBuffer oldest b m).2).2 b' =
            bufPairs (scanOneBuffer oldest b m).2 b' := by
          unfold bufPairs
          apply List.map_congr_left
          intro i hi
          rw [List.mem_range, hb'eq] at hi
          dsimp only at hi
          unfold eventAt
          rw [hb'eq]
          dsimp only
          simp only [Prod.mk.injEq]
          constructor
          · exact hspan _ (by omega) (by omega)
          · exact hspan _ (by omega) (by omega)
        rw [hcells, ← hb']
        exact spec.2.1
      · rw [hb'eq]; exact spec.2.2.1
      · rw [hb'eq]; exact spec.2.2.2.1
      · intro i hi
        rw [hb'eq] at hi ⊢
        simp only at hi ⊢
        rw [hspan _ (by omega) (by
            have hT : TRACE_SIZE = 8 := rfl
            simp only [hT] at *
            omega)]
        exact spec.2.2.2.2 i hi
    | k + 1 =>
      rw [List.get?_cons_succ] at hb hb'
      have hbmem : b ∈ rest := List.get?_mem hb
      have hwfb := hwf b (List.mem_cons_of_mem b0 hbmem)
      have hcellsb : ∀ j, j ≤ b.count_minus_one →
          (scanOneBuffer oldest b0 m).2 (b.times + 4 * j) = m (b.times + 4 * j) := by
        intro j hj
        exact hframe_tail b hbmem _ (by omega) (by omega)
      have htrcellsb : ∀ j, j ≤ b.count_minus_one →
          (scanOneBuffer oldest b0 m).2 (b.traces + 4 * j) = m (b.traces + 4 * j) := by
        intro j hj
        refine hframe_tail b hbmem _ (by
            have := hwfb.1
            omega) (by
            have := hwfb.2
            omega)
      have hpre : prefixLtCount (scanOneBuffer oldest b0 m).2 b.times oldest b.count_minus_one =
          prefixLtCount m b.times oldest b.count_minus_one :=
        prefixLtCount_congr _ m oldest b.count_minus_one b.times
          (fun j hj => hcellsb j (by omega))
      have hpairsb : bufPairs (scanOneBuffer oldest b0 m).2 b = bufPairs m b := by
        unfold bufPairs
        apply List.map_congr_left
        intro i hi
        rw [List.mem_range] at hi
        unfold eventAt
        rw [hcellsb i (by omega), htrcellsb i (by omega)]
      have h := ih (scanOneBuffer oldest b0 m).2
        (fun c hc => hwf c (List.mem_cons_of_mem b0 hc)) hd.2
        (fun c hc i hi => by
          rw [hframe_tail c hc _ (by omega) (by
              have := (hwf c (List.mem_cons_of_mem b0 hc)).1
              have := (hwf c (List.mem_cons_of_mem b0 hc)).2
              omega),
            hframe_tail c hc _ (by omega) (by
              have := (hwf c (List.mem_cons_of_mem b0 hc)).1
              have := (hwf c (List.mem_cons_of_mem b0 hc)).2
              omega)]
          exact hasc c (List.mem_cons_of_mem b0 hc) i hi)
        k b b' hb hb'
      rw [hpre, hpairsb] at h
      exact h

/-- Witness for the amended C6 at a concrete input: two disjoint
buffers, the first with times `[0, 3, 9]` and traces `[80, 81, 82]`.
Scanning with horizon 5 recycles the two leading events of the first
buffer and its surviving pairs are exactly the suffix `[(9, 82)]`. -/
theorem scan_history_traces_postcondition_witness :
    bufPairs
        (scan_history_traces 5 [⟨2, 1000, 1012, 24⟩, ⟨1, 1024, 1040, 32⟩]
          (fun a => if a = 1000 then 0 else if a = 1004 then 3 else
            if a = 1008 then 9 else if a = 1012 then 80 else
            if a = 1016 then 81 else if a = 1020 then 82 else
            if a = 1024 then 0 else if a = 1028 then 7 else
            if a = 1040 then 90 else if a = 1044 then 91 else 0)).2
        ⟨0, 1008, 1012, 8⟩ = [(9, 82)] := by
  have h := scan_history_traces_postcondition 5
    [⟨2, 1000, 1012, 24⟩, ⟨1, 1024, 1040, 32⟩]
    (fun a => if a = 1000 then 0 else if a = 1004 then 3 else
      if a = 1008 then 9 else if a = 1012 then 80 else
      if a = 1016 then 81 else if a = 1020 then 82 else
      if a = 1024 then 0 else if a = 1028 then 7 else
      if a = 1040 then 90 else if a = 1044 then 91 else 0)
    (by decide) (by decide) (by decide)
    0 ⟨2, 1000, 1012, 24⟩ ⟨0, 1008, 1012, 8⟩ (by decide) (by decide)
  exact h.2.1.trans (by decide)

/-- Claim C6, counterexample: the claim says that after `scan(horizon)` no
buffer retains an event other than the time-0 placeholder with
`time < horizon`.  On the buffer with times `[0, 3, 5]` and horizon 10
the prefix loop is capped at `count_minus_one = 2`, so the newest event
`5 < 10` survives — and it is not the placeholder (`5 ≠ 0`). -/
theorem scan_retains_event_below_horizon :
    (scan_history_traces 10 [⟨2, 1000, 1012, 24⟩]
        (fun a => if a = 1000 then 0 else if a = 1004 then 3 else
          if a = 1008 then 5 else if a = 1012 then 80 else
          if a = 1016 then 81 else if a = 1020 then 82 else 0)).1 =
      [⟨0, 1008, 1012, 8⟩] ∧
    timesList
        (scan_history_traces 10 [⟨2, 1000, 1012, 24⟩]
          (fun a => if a = 1000 then 0 else if a = 1004 then 3 else
            if a = 1008 then 5 else if a = 1012 then 80 else
            if a = 1016 then 81 else if a = 1020 then 82 else 0)).2
        ⟨0, 1008, 1012, 8⟩ = [5] ∧
    (5 : Nat) < 10 ∧ (5 : Nat) ≠ 0 := by
  refine ⟨by decide, by decide, by decide, by decide⟩

/-- Claim C5: the claim (and the invariant documented in
`post_events_add`: "1st element is always an entry at time 0") says
scanning drops only events strictly older than the horizon *excluding
the permanent time-0 placeholder*, so the first retained entry is still
the placeholder at time 0.  The code's prefix loop starts at `j = 0`
with no exclusion: on the buffer `times = [0, 5]` with horizon 1 it
recycles the placeholder itself, and the first retained entry is `5`,
not `0`. -/
theorem scan_drops_placeholder :
    (scan_history_traces 1 [⟨1, 1000, 1016, 32⟩]
        (fun a => if a = 1000 then 0 else if a = 1004 then 5 else
          if a = 1016 then 90 else if a = 1020 then 91 else 0)).1 =
      [⟨0, 1004, 1016, 24⟩] ∧
    timesList
        (scan_history_traces 1 [⟨1, 1000, 1016, 32⟩]
          (fun a => if a = 1000 then 0 else if a = 1004 then 5 else
            if a = 1016 then 90 else if a = 1020 then 91 else 0)).2
        ⟨0, 1004, 1016, 24⟩ = [5] ∧
    (5 : Nat) ≠ 0 := by
  refine ⟨by decide, by decide, by decide⟩

theorem prevIdx_le (m : Mem) (base t : Nat) : ∀ k, prevIdx m base t k ≤ k := by
  intro k
  induction k with
  | zero => exact le_refl 0
  | succ k ih =>
    rw [prevIdx]
    split
    · omega
    · omega

theorem prevIdx_above (m : Mem) (base t : Nat) :
    ∀ k j, prevIdx m base t k < j → j ≤ k → t < m (base + 4 * j) := by
  intro k
  induction k with
  | zero =>
    intro j h1 h2
    rw [prevIdx] at h1
    omega
  | succ k ih =>
    intro j h1 h2
    rw [prevIdx] at h1
    by_cases hc : t < m (base + 4 * (k + 1))
    · rw [if_pos hc] at h1
      rcases Nat.lt_or_ge j (k + 1) with h | h
      · exact ih j h1 (by omega)
      · have : j = k + 1 := by omega
        rw [this]
        exact hc
    · rw [if_neg hc] at h1
      omega

theorem prevIdx_stop (m : Mem) (base t : Nat) :
    ∀ k, prevIdx m base t k = 0 ∨ m (base + 4 * prevIdx m base t k) ≤ t := by
  intro k
  induction k with
  | zero => exact Or.inl rfl
  | succ k ih =>
    rw [prevIdx]
    by_cases hc : t < m (base + 4 * (k + 1))
    · rw [if_pos hc]
      exact ih
    · rw [if_neg hc]
      exact Or.inr (by omega)

/-- Claim C7: window correctness — for a buffer whose `times[0..count)` are
strictly ascending with `times[0] = 0` and any query time `t`,
`post_events_get_window` returns exactly the events with `time > t` as
the "next" events, in ascending (stored) order, with `num_events` their
number and `next_time`/`next_trace` the aligned addresses of the first
of them; and the nearest (largest) event with `time ≤ t` as
`prev_time`/`prev_trace`.  The embedding of the function is read-only by
construction (it takes the memory and returns only a window), matching
the `const` C signature. -/
theorem get_window_correct (m : Mem) (b : PostEventHistory) (t : Nat)
    (hasc : ∀ i, i < b.count_minus_one → m (b.times + 4 * i) < m (b.times + 4 * (i + 1)))
    (h0 : m b.times = 0) :
    (post_events_get_window m b t).num_events =
      (timesList m b).countP (fun x => decide (t < x)) ∧
    (List.range (post_events_get_window m b t).num_events).map
        (fun j => m ((post_events_get_window m b t).next_time + 4 * j)) =
      (timesList m b).filter (fun x => decide (t < x)) ∧
    (post_events_get_window m b t).prev_time ∈ timesList m b ∧
    (post_events_get_window m b t).prev_time ≤ t ∧
    (∀ x ∈ timesList m b, x ≤ t → x ≤ (post_events_get_window m b t).prev_time) ∧
    (post_events_get_window m b t).next_time =
      b.times + 4 * (b.count_minus_one + 1 - (post_events_get_window m b t).num_events) ∧
    (post_events_get_window m b t).next_trace =
      b.traces + 4 * (b.count_minus_one + 1 - (post_events_get_window m b t).num_events) ∧
    (post_events_get_window m b t).prev_trace =
      m (b.traces + 4 * (b.count_minus_one - (post_events_get_window m b t).num_events)) := by
  have hple := prevIdx_le m b.times t b.count_minus_one
  have habove := prevIdx_above m b.times t b.count_minus_one
  have hprevle : m (b.times + 4 * prevIdx m b.times t b.count_minus_one) ≤ t := by
    rcases prevIdx_stop m b.times t b.count_minus_one with h | h
    · rw [h]
      simpa using h0 ▸ (Nat.zero_le t)
    · exact h
  have hmono := ascend_le m b.times b.count_minus_one hasc
  have hfilter : (timesList m b).filter (fun x => decide (t < x)) =
      (List.range (b.count_minus_one - prevIdx m b.times t b.count_minus_one)).map
        (fun j => m (b.times + 4 * (prevIdx m b.times t b.count_minus_one + 1 + j))) := by
    unfold timesList
    have hsplit : b.count_minus_one + 1 =
        (prevIdx m b.times t b.count_minus_one + 1) +
          (b.count_minus_one - prevIdx m b.times t b.count_minus_one) := by omega
    rw [hsplit, List.range_add, List.map_append, List.filter_append]
    simp only [List.map_map, Function.comp_def]
    have hleft : ((List.range (prevIdx m b.times t b.count_minus_one + 1)).map
        (fun i => m (b.times + 4 * i))).filter (fun x => decide (t < x)) = [] := by
      rw [List.filter_eq_nil_iff]
      intro a ha
      rw [List.mem_map] at ha
      obtain ⟨i, hi, rfl⟩ := ha
      rw [List.mem_range] at hi
      have : m (b.times + 4 * i) ≤ t :=
        le_trans (hmono (prevIdx m b.times t b.count_minus_one) hple i (by omega)) hprevle
      simpa using this
    have hright : ((List.range (b.count_minus_one - prevIdx m b.times t b.count_minus_one)).map
        (fun i => m (b.times + 4 * (prevIdx m b.times t b.count_minus_one + 1 + i)))).filter
          (fun x => decide (t < x)) =
        (List.range (b.count_minus_one - prevIdx m b.times t b.count_minus_one)).map
          (fun i => m (b.times + 4 * (prevIdx m b.times t b.count_minus_one + 1 + i))) := by
      rw [List.filter_eq_self]
      intro a ha
      rw [List.mem_map] at ha
      obtain ⟨i, hi, rfl⟩ := ha
      rw [List.mem_range] at hi
      have := habove (prevIdx m b.times t b.count_minus_one + 1 + i) (by omega) (by omega)
      simpa using this
    rw [hleft, hright, List.nil_append]
  refine ⟨?_, ?_, ?_, hprevle, ?_, ?_, ?_, ?_⟩
  · rw [List.countP_eq_length_filter, hfilter, List.length_map, List.length_range]
    unfold post_events_get_window
    simp only
    omega
  · rw [hfilter]
    unfold post_events_get_window
    simp only
    have hn : b.count_minus_one + 1 - (prevIdx m b.times t b.count_minus_one + 1) =
        b.count_minus_one - prevIdx m b.times t b.count_minus_one := by omega
    rw [hn]
    apply List.map_congr_left
    intro j hj
    congr 1
    omega
  · unfold post_events_get_window timesList
    simp only
    apply List.mem_map_of_mem
    rw [List.mem_range]
    omega
  · intro x hx hxt
    unfold timesList at hx
    rw [List.mem_map] at hx
    obtain ⟨i, hi, rfl⟩ := hx
    rw [List.mem_range] at hi
    unfold post_events_get_window
    simp only
    rcases Nat.lt_or_ge i (prevIdx m b.times t b.count_minus_one + 1) with h | h
    · exact hmono (prevIdx m b.times t b.count_minus_one) hple i (by omega)
    · exact absurd (habove i (by omega) (by omega)) (by omega)
  · unfold post_events_get_window
    simp only
    congr 1
    omega
  · unfold post_events_get_window
    simp only
    congr 1
    omega
  · unfold post_events_get_window
    simp only
    congr 2
    omega

/-- Witness for C7 at a concrete input: buffer with times `[0, 4, 9]` and
traces `[70, 71, 72]`, queried at `t = 4`: one next event (`9`), previous
event `4` with trace `71`. -/
theorem get_window_correct_witness :
    (post_events_get_window
        (fun a => if a = 1000 then 0 else if a = 1004 then 4 else
          if a = 1008 then 9 else if a = 1012 then 70 else
          if a = 1016 then 71 else if a = 1020 then 72 else 0)
        ⟨2, 1000, 1012, 24⟩ 4).num_events = 1 ∧
    (post_events_get_window
        (fun a => if a = 1000 then 0 else if a = 1004 then 4 else
          if a = 1008 then 9 else if a = 1012 then 70 else
          if a = 1016 then 71 else if a = 1020 then 72 else 0)
        ⟨2, 1000, 1012, 24⟩ 4).prev_time = 4 ∧
    (post_events_get_window
        (fun a => if a = 1000 then 0 else if a = 1004 then 4 else
          if a = 1008 then 9 else if a = 1012 then 70 else
          if a = 1016 then 71 else if a = 1020 then 72 else 0)
        ⟨2, 1000, 1012, 24⟩ 4).prev_trace = 71 := by
  have h := get_window_correct
    (fun a => if a = 1000 then 0 else if a = 1004 then 4 else
      if a = 1008 then 9 else if a = 1012 then 70 else
      if a = 1016 then 71 else if a = 1020 then 72 else 0)
    ⟨2, 1000, 1012, 24⟩ 4 (by decide) (by decide)
  refine ⟨?_, ?_, ?_⟩
  · exact h.1.trans (by decide)
  · rcases Nat.lt_or_ge 4 ((post_events_get_window
      (fun a => if a = 1000 then 0 else if a = 1004 then 4 else
        if a = 1008 then 9 else if a = 1012 then 70 else
        if a = 1016 then 71 else if a = 1020 then 72 else 0)
      ⟨2, 1000, 1012, 24⟩ 4).prev_time) with hlt | hge
    · exact absurd h.2.2.2.1 (by omega)
    · have hmem := h.2.2.1
      have hmax := h.2.2.2.2.1 4 (by decide) (by omega)
      omega
  · exact by decide

/-- Claim C4: compaction convergence fails on the code: starting from the
well-formed single-neuron arena `[1000, 1056)` whose one full buffer
(times `[0, 20, 30, 40]`, traces `[100, 101, 102, 103]`) is packed at the
start with the frontier at `1032`, the second of
`COMPACTOR_FRAGMENTATION_FACTOR = 4` successive compaction calls selects
no buffer (the fragment `[1014, 1028]` contains no buffer start), so
`overall_size = 0` and the sentinel write `addr[0] = -1` lands at
`end_of_last_compaction_address - 4 = 1028` — the last live trace word of
the previously packed buffer — and no writeback ever overwrites it (a
zero-length DMA also never changes it, so the busy-wait would in fact
spin forever).  After the four calls the buffer record is unchanged, but
its stored pairs end `(40, 0xFFFFFFFF)` instead of `(40, 103)`: the
claimed preservation of every `(time, trace)` pair is violated. -/
theorem compaction_corrupts_trace :
    (compactRun 4 (⟨1000, 56, 1032⟩, [⟨3, 1000, 1016, 32⟩], ⟨0, 0, 0⟩,
        fun a => if a = 1000 then 0 else if a = 1004 then 20 else
          if a = 1008 then 30 else if a = 1012 then 40 else
          if a = 1016 then 100 else if a = 1020 then 101 else
          if a = 1024 then 102 else if a = 1028 then 103 else 0)).2.1 =
      [⟨3, 1000, 1016, 32⟩] ∧
    bufPairs
        (compactRun 4 (⟨1000, 56, 1032⟩, [⟨3, 1000, 1016, 32⟩], ⟨0, 0, 0⟩,
          fun a => if a = 1000 then 0 else if a = 1004 then 20 else
            if a = 1008 then 30 else if a = 1012 then 40 else
            if a = 1016 then 100 else if a = 1020 then 101 else
            if a = 1024 then 102 else if a = 1028 then 103 else 0)).2.2.2
        ⟨3, 1000, 1016, 32⟩ =
      [(0, 100), (20, 101), (30, 102), (40, 4294967295)] ∧
    bufPairs
        (fun a => if a = 1000 then 0 else if a = 1004 then 20 else
          if a = 1008 then 30 else if a = 1012 then 40 else
          if a = 1016 then 100 else if a = 1020 then 101 else
          if a = 1024 then 102 else if a = 1028 then 103 else 0)
        ⟨3, 1000, 1016, 32⟩ =
      [(0, 100), (20, 101), (30, 102), (40, 103)] := by
  refine ⟨by decide, by decide, by decide⟩

/-- Claim C9: the claim says `post_events_init_buffers` returns NULL
whenever *any* of its reservations (header array, data region, extra
slack) fails.  The code checks `post_event_data == NULL` only after the
pointer-assignment loop advanced `post_event_data` past null, so with
`n_neurons = 1` and a failed data-region reservation (null, here `none`)
the check compares `0 + 32 ≠ 0` and initialization *succeeds*, returning
a non-null buffer array laid out from address 0. -/
theorem init_misses_data_alloc_failure :
    (post_events_init_buffers 1 (some 5000) none (some 6000) (fun _ => 0)).isSome = true := by
  rfl

/-- Claim C8: the ordering invariant does not survive every legal
Append/Extension/Compaction/Scan sequence.  From the freshly initialized
16-neuron system, append `(5, 7)` to neuron 15 (legal even in the strict
sense: `5 >` every existing time, namely the placeholder `0`; afterwards
its times are `[0, 5]`, strictly ascending), then run two compaction
calls.  The first fragment is `[1000, 1224]` and the second
`[1224, 1448]` — both bounds inclusive (`times >= start_addr &
times <= end_addr`), so buffer 7 (at 1224) is selected by *both* calls
and re-packed a second time; the second call's writeback therefore spans
`[1256, 1512)`, 32 bytes past the last selected buffer, and overwrites
the unselected buffer 15's span `[1480, 1512)` with buffer 14's staged
bytes.  Buffer 15's times become `[0, 0]` — not strictly ascending. -/
theorem ordering_invariant_broken_by_compaction :
    timesListAt (gcRun [GCOp.append 15 5 7] gcInit16) 15 = [0, 5] ∧
    strictAscending (timesListAt (gcRun [GCOp.append 15 5 7] gcInit16) 15) = true ∧
    timesListAt (gcRun [GCOp.append 15 5 7, GCOp.compact, GCOp.compact] gcInit16) 15 = [0, 0] ∧
    strictAscending
        (timesListAt (gcRun [GCOp.append 15 5 7, GCOp.compact, GCOp.compact] gcInit16) 15) =
      false := by
  refine ⟨by decide, by decide, by decide, by decide⟩

/-- Claim C2, counterexample: the claim says Extension fails *exactly when*
`frontier + byteSize + stride` would *exceed* the arena's end
`start + size`.  At the concrete arena below the sum *equals* the arena
end (`1016 + 24 + 8 = 1048 = 1000 + 48`), so by the claim the call should
succeed, yet the code's `<=` guard makes it fail. -/
theorem extend_fail_boundary_counterexample :
    extend_hist_trace_buffer ⟨1000, 48, 1016⟩ ⟨1, 1000, 1008, 24⟩ (fun _ => 0) = none ∧
    ¬ (1016 + 24 + TRACE_SIZE > 1000 + 48) := by
  constructor
  · rfl
  · decide

end SpinnGC
